import Mathlib

/-!
Verification of the particle-cloud renderer in `SphereConvCube.cpp`.

The CPU-side simulation (`AlloApp::onAnimate`), the initialization
(`AlloApp::onCreate`), the alpha-mask texture build, the per-frame uniform
handoff (`AlloApp::onDraw`) and the geometry shader `main` are embedded as
functions over the real numbers (the C++ `float`/`double` arithmetic is
idealized as exact real arithmetic).
-/

open scoped Classical

noncomputable section

/-- A 3-component vector, mirroring `al::Vec3f`. -/
@[ext] structure Vec3 where
  x : ℝ
  y : ℝ
  z : ℝ

namespace Vec3

def zero : Vec3 := ⟨0, 0, 0⟩

instance : Zero Vec3 := ⟨zero⟩

instance : Add Vec3 := ⟨fun a b => ⟨a.x + b.x, a.y + b.y, a.z + b.z⟩⟩

instance : SMul ℝ Vec3 := ⟨fun c a => ⟨c * a.x, c * a.y, c * a.z⟩⟩

@[simp] theorem add_x (a b : Vec3) : (a + b).x = a.x + b.x := rfl

@[simp] theorem add_y (a b : Vec3) : (a + b).y = a.y + b.y := rfl

@[simp] theorem add_z (a b : Vec3) : (a + b).z = a.z + b.z := rfl

@[simp] theorem smul_x (c : ℝ) (a : Vec3) : (c • a).x = c * a.x := rfl

@[simp] theorem smul_y (c : ℝ) (a : Vec3) : (c • a).y = c * a.y := rfl

@[simp] theorem smul_z (c : ℝ) (a : Vec3) : (c • a).z = c * a.z := rfl

@[simp] theorem zero_x : (0 : Vec3).x = 0 := rfl

@[simp] theorem zero_y : (0 : Vec3).y = 0 := rfl

@[simp] theorem zero_z : (0 : Vec3).z = 0 := rfl

/-- Squared Euclidean magnitude. -/
def normSq (a : Vec3) : ℝ := a.x ^ 2 + a.y ^ 2 + a.z ^ 2

/-- Euclidean magnitude, mirroring `al::Vec::mag()`. -/
def norm (a : Vec3) : ℝ := Real.sqrt a.normSq

/-- Modelled from the spec: `al::Vec3f::normalize(scale)` lives in the host
framework (`al/core.hpp`), not in this repository's sources.  Spec §4.2
describes it as scaling the position direction to the given increment
length; §7 records that the zero-length case is unguarded in the design, so
the zero vector is mapped to the zero vector here. -/
def normalize (p : Vec3) (s : ℝ) : Vec3 :=
  if p.normSq = 0 then 0 else (s / p.norm) • p

end Vec3

/-- A hue/saturation/value color, mirroring `al::HSV(h, s, v)`.  The host
framework converts it to RGBA on assignment; the claims speak at the HSV
level, so the conversion (framework code, outside `src/`) is not modelled. -/
structure HSVColor where
  h : ℝ
  s : ℝ
  v : ℝ

/-- One cloud member: position and color (spec §3). -/
structure Particle where
  pos : Vec3
  color : HSVColor

/-- C truncation toward zero, as used by `fmod`. -/
def cTrunc (x : ℝ) : ℤ := if 0 ≤ x then ⌊x⌋ else ⌈x⌉

/-- C `fmod(a, b)`: remainder with the quotient truncated toward zero. -/
def fmod (a b : ℝ) : ℝ := a - b * (cTrunc (a / b) : ℝ)

/-- The boundary magnitude `size` of `onAnimate` (line 204). -/
def size : ℝ := 10.0

/-- The radial drift step `increment` of `onAnimate` (line 208). -/
def increment : ℝ := 0.01

/-- The near-zero collapse scalar of `onAnimate` (lines 215/221/227). -/
def collapseScale : ℝ := 0.000001

/-- The color written when a particle crosses the boundary
(lines 216/222/228): `HSV(fmod(ellapsedTime * 0.05, 1.0), 1.0, 1.0)`. -/
def collapseColor (t : ℝ) : HSVColor := ⟨fmod (t * 0.05) 1.0, 1.0, 1.0⟩

/-- The positional drift of one `onAnimate` iteration (lines 209-211):
add the current position normalized to length `increment`. -/
def driftPos (p : Vec3) : Vec3 := p + p.normalize increment

/-- The x-axis boundary check (lines 213-217). -/
def checkX (t : ℝ) (pr : Particle) : Particle :=
  if pr.pos.x > size ∨ pr.pos.x < -size then
    ⟨collapseScale • pr.pos, collapseColor t⟩
  else pr

/-- The y-axis boundary check (lines 219-223). -/
def checkY (t : ℝ) (pr : Particle) : Particle :=
  if pr.pos.y > size ∨ pr.pos.y < -size then
    ⟨collapseScale • pr.pos, collapseColor t⟩
  else pr

/-- The z-axis boundary check (lines 225-229). -/
def checkZ (t : ℝ) (pr : Particle) : Particle :=
  if pr.pos.z > size ∨ pr.pos.z < -size then
    ⟨collapseScale • pr.pos, collapseColor t⟩
  else pr

/-- One full per-particle step of `onAnimate` (lines 205-233): drift, then
the three sequential axis checks.  `t` is the elapsed time current inside
the frame. -/
def updateParticle (t : ℝ) (pr : Particle) : Particle :=
  checkZ t (checkY t (checkX t ⟨driftPos pr.pos, pr.color⟩))

/-- The mutable frame state of `AlloApp` (lines 189-191) together with the
particle array of `pointMesh`. -/
structure FrameState where
  phase : ℝ
  ellapsedTime : ℝ
  halfSize : ℝ
  particles : List Particle

/-- `AlloApp::onAnimate(dt)` (lines 192-234): accumulate `phase` and
`ellapsedTime`, wrap `phase` past 3, derive `halfSize` from the wrapped
value, overwrite `phase` with 1.0, then update every particle. -/
def onAnimate (st : FrameState) (dt : ℝ) : FrameState :=
  let phase1 := st.phase + dt
  let et := st.ellapsedTime + dt
  let phaseW := if phase1 > 3 then phase1 - 3 else phase1
  let hs := 0.2 * phaseW / 3
  { phase := 1.0
    ellapsedTime := et
    halfSize := hs
    particles := st.particles.map (updateParticle et) }

/-- The scalar uniforms handed to the shader program each frame. -/
structure Uniforms where
  halfSize : ℝ
  phase : ℝ

/-- The uniform assignment of `AlloApp::onDraw` (lines 246-247):
`halfSize` is the stored member, `phase` is `float(ellapsedTime)`. -/
def drawUniforms (st : FrameState) : Uniforms :=
  ⟨st.halfSize, st.ellapsedTime⟩

/-- The normalized coordinate of sample index `i` on an axis of `n` samples
(lines 157/160): `float(i) / (n - 1) * 2 - 1`. -/
def maskCoord (n : ℕ) (i : ℕ) : ℝ := (i : ℝ) / ((n : ℝ) - 1) * 2 - 1

/-- The alpha-mask sample at grid index `(i, j)` of an `nx × ny` texture
(lines 155-164): `exp(-13 * (x^2 + y^2))` scaled by the largest positive
`short`, `2^15 - 1`. -/
def maskValue (nx ny : ℕ) (i j : ℕ) : ℝ :=
  Real.exp (-13 * ((maskCoord nx i) ^ 2 + (maskCoord ny j) ^ 2)) * (2 ^ 15 - 1)

/-- The initial position of a particle sampled at angles
`(horizontal, vertical)` (lines 177-182): the spherical point of radius
`r = 0.01` scaled by `CLOUD_WIDTH = 80.0`. -/
def initPos (horizontal vertical : ℝ) : Vec3 :=
  (80.0 : ℝ) • ⟨0.01 * (Real.cos horizontal * Real.sin vertical),
                0.01 * Real.cos vertical,
                0.01 * (Real.sin horizontal * Real.sin vertical)⟩

/-- The initial particle at sampled angles (lines 180-183): the spherical
position and the fixed color `HSV(0.7, 1.0, 1.0)`. -/
def initParticle (horizontal vertical : ℝ) : Particle :=
  ⟨initPos horizontal vertical, ⟨0.7, 1.0, 1.0⟩⟩

/-- A 4-component vector of the shader pipeline (`vec4`). -/
def Vec4R : Type := Fin 4 → ℝ

instance : Add Vec4R := ⟨fun a b i => a i + b i⟩

/-- `mat4 * vec4` of GLSL: row `i` of the product is the dot product of row
`i` of the matrix with the vector. -/
def mulVec4 (m : Fin 4 → Fin 4 → ℝ) (v : Vec4R) : Vec4R :=
  fun i => ∑ j, m i j * v j

/-- One vertex emitted by the geometry stage: `gl_Position`, the fragment
texture coordinate and the fragment color. -/
structure GVertex where
  pos : Vec4R
  texCoord : ℝ × ℝ
  color : Vec4R

/-- The `vec4(a, b, 0.0, 0.0)` corner offsets of the geometry shader. -/
def cornerOffset (a b : ℝ) : Vec4R := ![a, b, 0, 0]

/-- The geometry shader `main` (lines 112-137): from the projection matrix
`m`, the view-space input point `v`, the uniform `halfSize` and the input
color `c`, emit four vertices of a triangle strip. -/
def geometryMain (m : Fin 4 → Fin 4 → ℝ) (v : Vec4R) (halfSize : ℝ)
    (c : Vec4R) : List GVertex :=
  [ ⟨mulVec4 m (v + cornerOffset (-halfSize) (-halfSize)), (0, 0), c⟩,
    ⟨mulVec4 m (v + cornerOffset halfSize (-halfSize)), (1, 0), c⟩,
    ⟨mulVec4 m (v + cornerOffset (-halfSize) halfSize), (0, 1), c⟩,
    ⟨mulVec4 m (v + cornerOffset halfSize halfSize), (1, 1), c⟩ ]

end

/-! ### Basic facts about `Vec3` -/

theorem Vec3.normSq_nonneg (a : Vec3) : 0 ≤ a.normSq := by
  unfold normSq; positivity

theorem Vec3.norm_nonneg (a : Vec3) : 0 ≤ a.norm := Real.sqrt_nonneg _

theorem Vec3.norm_pos_of_normSq_ne (a : Vec3) (h : a.normSq ≠ 0) : 0 < a.norm :=
  Real.sqrt_pos.mpr (lt_of_le_of_ne a.normSq_nonneg (Ne.symm h))

theorem Vec3.normSq_eq_zero_iff (a : Vec3) : a.normSq = 0 ↔ a = 0 := by
  constructor
  · intro h
    unfold normSq at h
    have hx : a.x = 0 := by
      have h2 : a.x ^ 2 = 0 := by nlinarith [sq_nonneg a.y, sq_nonneg a.z]
      exact pow_eq_zero_iff (two_ne_zero) |>.mp h2
    have hy : a.y = 0 := by
      have h2 : a.y ^ 2 = 0 := by nlinarith [sq_nonneg a.x, sq_nonneg a.z]
      exact pow_eq_zero_iff (two_ne_zero) |>.mp h2
    have hz : a.z = 0 := by
      have h2 : a.z ^ 2 = 0 := by nlinarith [sq_nonneg a.x, sq_nonneg a.y]
      exact pow_eq_zero_iff (two_ne_zero) |>.mp h2
    ext <;> simp [hx, hy, hz]
  · rintro rfl
    simp [normSq]

theorem Vec3.abs_le_norm (a : Vec3) :
    |a.x| ≤ a.norm ∧ |a.y| ≤ a.norm ∧ |a.z| ≤ a.norm := by
  unfold norm normSq
  refine ⟨?_, ?_, ?_⟩ <;>
    rw [← Real.sqrt_sq_eq_abs] <;>
    exact Real.sqrt_le_sqrt (by nlinarith [sq_nonneg a.x, sq_nonneg a.y, sq_nonneg a.z])

theorem Vec3.norm_smul (c : ℝ) (a : Vec3) : (c • a).norm = |c| * a.norm := by
  unfold norm normSq
  have h : (c • a).x ^ 2 + (c • a).y ^ 2 + (c • a).z ^ 2 =
      c ^ 2 * (a.x ^ 2 + a.y ^ 2 + a.z ^ 2) := by
    simp only [smul_x, smul_y, smul_z]; ring
  rw [h, Real.sqrt_mul (sq_nonneg c), Real.sqrt_sq_eq_abs]

theorem Vec3.normalize_comp_bound (p : Vec3) (s : ℝ) (hs : 0 ≤ s) :
    |(p.normalize s).x| ≤ s ∧ |(p.normalize s).y| ≤ s ∧ |(p.normalize s).z| ≤ s := by
  unfold normalize
  split_ifs with h
  · simp only [zero_x, zero_y, zero_z, abs_zero]
    exact ⟨hs, hs, hs⟩
  · have hpos := p.norm_pos_of_normSq_ne h
    have hnn : 0 ≤ s / p.norm := div_nonneg hs hpos.le
    obtain ⟨hbx, hby, hbz⟩ := p.abs_le_norm
    refine ⟨?_, ?_, ?_⟩
    · rw [smul_x, abs_mul, abs_of_nonneg hnn]
      calc s / p.norm * |p.x| ≤ s / p.norm * p.norm :=
            mul_le_mul_of_nonneg_left hbx hnn
        _ = s := div_mul_cancel₀ s hpos.ne'
    · rw [smul_y, abs_mul, abs_of_nonneg hnn]
      calc s / p.norm * |p.y| ≤ s / p.norm * p.norm :=
            mul_le_mul_of_nonneg_left hby hnn
        _ = s := div_mul_cancel₀ s hpos.ne'
    · rw [smul_z, abs_mul, abs_of_nonneg hnn]
      calc s / p.norm * |p.z| ≤ s / p.norm * p.norm :=
            mul_le_mul_of_nonneg_left hbz hnn
        _ = s := div_mul_cancel₀ s hpos.ne'

/-! ### Facts about the positional drift -/

theorem driftPos_zero : driftPos 0 = 0 := by
  unfold driftPos Vec3.normalize
  rw [if_pos ((Vec3.normSq_eq_zero_iff 0).mpr rfl)]
  ext <;> simp

theorem driftPos_eq_smul (p : Vec3) (h : p.normSq ≠ 0) :
    driftPos p = (1 + increment / p.norm) • p := by
  unfold driftPos Vec3.normalize
  rw [if_neg h]
  ext <;> simp <;> ring

theorem driftPos_norm (p : Vec3) (h : p.normSq ≠ 0) :
    (driftPos p).norm = p.norm + increment := by
  have hpos := p.norm_pos_of_normSq_ne h
  have hq : 0 < increment / p.norm := div_pos (by norm_num [increment]) hpos
  rw [driftPos_eq_smul p h, Vec3.norm_smul, abs_of_pos (by linarith), add_mul,
    one_mul, div_mul_cancel₀ _ hpos.ne']

theorem driftPos_comp_bound (p : Vec3) (B : ℝ)
    (hb : |p.x| ≤ B ∧ |p.y| ≤ B ∧ |p.z| ≤ B) :
    |(driftPos p).x| ≤ B + increment ∧ |(driftPos p).y| ≤ B + increment ∧
      |(driftPos p).z| ≤ B + increment := by
  obtain ⟨h1, h2, h3⟩ := hb
  obtain ⟨n1, n2, n3⟩ := p.normalize_comp_bound increment (by norm_num [increment])
  unfold driftPos
  refine ⟨?_, ?_, ?_⟩
  · rw [Vec3.add_x]
    exact le_trans (abs_add _ _) (add_le_add h1 n1)
  · rw [Vec3.add_y]
    exact le_trans (abs_add _ _) (add_le_add h2 n2)
  · rw [Vec3.add_z]
    exact le_trans (abs_add _ _) (add_le_add h3 n3)

/-! ### Facts about the boundary checks -/

theorem not_out_iff (a : ℝ) : ¬(a > size ∨ a < -size) ↔ |a| ≤ size := by
  rw [abs_le]
  push_neg
  exact and_comm

theorem collapsed_not_out (a : ℝ) (ha : |a| ≤ size + increment) :
    ¬(collapseScale * a > size ∨ collapseScale * a < -size) := by
  rw [not_out_iff, abs_mul, abs_of_nonneg (by norm_num [collapseScale] : (0:ℝ) ≤ collapseScale)]
  calc collapseScale * |a| ≤ collapseScale * (size + increment) :=
        mul_le_mul_of_nonneg_left ha (by norm_num [collapseScale])
    _ ≤ size := by norm_num [collapseScale, size, increment]

theorem checks_pass (t : ℝ) (q : Vec3) (c0 : HSVColor)
    (hx : ¬(q.x > size ∨ q.x < -size))
    (hy : ¬(q.y > size ∨ q.y < -size))
    (hz : ¬(q.z > size ∨ q.z < -size)) :
    checkZ t (checkY t (checkX t ⟨q, c0⟩)) = ⟨q, c0⟩ := by
  have e1 : checkX t ⟨q, c0⟩ = ⟨q, c0⟩ := by unfold checkX; exact if_neg hx
  have e2 : checkY t ⟨q, c0⟩ = ⟨q, c0⟩ := by unfold checkY; exact if_neg hy
  have e3 : checkZ t ⟨q, c0⟩ = ⟨q, c0⟩ := by unfold checkZ; exact if_neg hz
  rw [e1, e2, e3]

theorem checks_collapse (t : ℝ) (q : Vec3) (c0 : HSVColor)
    (hb : |q.x| ≤ size + increment ∧ |q.y| ≤ size + increment ∧ |q.z| ≤ size + increment)
    (htr : (q.x > size ∨ q.x < -size) ∨ (q.y > size ∨ q.y < -size) ∨
           (q.z > size ∨ q.z < -size)) :
    checkZ t (checkY t (checkX t ⟨q, c0⟩)) = ⟨collapseScale • q, collapseColor t⟩ := by
  obtain ⟨hbx, hby, hbz⟩ := hb
  by_cases hx : q.x > size ∨ q.x < -size
  · have e1 : checkX t ⟨q, c0⟩ = ⟨collapseScale • q, collapseColor t⟩ := by
      unfold checkX; exact if_pos hx
    have e2 : checkY t ⟨collapseScale • q, collapseColor t⟩ =
        ⟨collapseScale • q, collapseColor t⟩ := by
      unfold checkY; exact if_neg (collapsed_not_out q.y hby)
    have e3 : checkZ t ⟨collapseScale • q, collapseColor t⟩ =
        ⟨collapseScale • q, collapseColor t⟩ := by
      unfold checkZ; exact if_neg (collapsed_not_out q.z hbz)
    rw [e1, e2, e3]
  · have e1 : checkX t ⟨q, c0⟩ = ⟨q, c0⟩ := by unfold checkX; exact if_neg hx
    by_cases hy : q.y > size ∨ q.y < -size
    · have e2 : checkY t ⟨q, c0⟩ = ⟨collapseScale • q, collapseColor t⟩ := by
        unfold checkY; exact if_pos hy
      have e3 : checkZ t ⟨collapseScale • q, collapseColor t⟩ =
          ⟨collapseScale • q, collapseColor t⟩ := by
        unfold checkZ; exact if_neg (collapsed_not_out q.z hbz)
      rw [e1, e2, e3]
    · have hz : q.z > size ∨ q.z < -size := by tauto
      have e2 : checkY t ⟨q, c0⟩ = ⟨q, c0⟩ := by unfold checkY; exact if_neg hy
      have e3 : checkZ t ⟨q, c0⟩ = ⟨collapseScale • q, collapseColor t⟩ := by
        unfold checkZ; exact if_pos hz
      rw [e1, e2, e3]

theorem checkX_pos_congr (t1 t2 : ℝ) (a b : Particle) (hp : a.pos = b.pos) :
    (checkX t1 a).pos = (checkX t2 b).pos := by
  unfold checkX
  rw [hp]
  split_ifs <;> simp [hp]

theorem checkY_pos_congr (t1 t2 : ℝ) (a b : Particle) (hp : a.pos = b.pos) :
    (checkY t1 a).pos = (checkY t2 b).pos := by
  unfold checkY
  rw [hp]
  split_ifs <;> simp [hp]

theorem checkZ_pos_congr (t1 t2 : ℝ) (a b : Particle) (hp : a.pos = b.pos) :
    (checkZ t1 a).pos = (checkZ t2 b).pos := by
  unfold checkZ
  rw [hp]
  split_ifs <;> simp [hp]

theorem updateParticle_pos_indep (t1 t2 : ℝ) (pr : Particle) :
    (updateParticle t1 pr).pos = (updateParticle t2 pr).pos := by
  unfold updateParticle
  exact checkZ_pos_congr _ _ _ _ (checkY_pos_congr _ _ _ _ (checkX_pos_congr _ _ _ _ rfl))

/-! ### The claims about the per-particle update -/

/-- C1: for a particle that starts the step inside the boundary (as every
reachable particle does), if after the positional update any of its three
position components has absolute value exceeding `size = 10.0`, then at the
end of the step its position equals its pre-check position scaled by
`0.000001` and its color equals `HSV(fmod(ellapsedTime * 0.05, 1.0), 1.0, 1.0)`. -/
theorem collapse_step_position_and_color (t : ℝ) (pr : Particle)
    (hb : |pr.pos.x| ≤ size ∧ |pr.pos.y| ≤ size ∧ |pr.pos.z| ≤ size)
    (htr : ((driftPos pr.pos).x > size ∨ (driftPos pr.pos).x < -size) ∨
           ((driftPos pr.pos).y > size ∨ (driftPos pr.pos).y < -size) ∨
           ((driftPos pr.pos).z > size ∨ (driftPos pr.pos).z < -size)) :
    (updateParticle t pr).pos = collapseScale • driftPos pr.pos ∧
    (updateParticle t pr).color = collapseColor t := by
  have hd := driftPos_comp_bound pr.pos size hb
  unfold updateParticle
  rw [checks_collapse t (driftPos pr.pos) pr.color hd htr]
  exact ⟨rfl, rfl⟩

/-- Witness for C1 at the particle `(10, 0, 0)` with elapsed time 2: the
drifted position `(10.01, 0, 0)` exceeds the boundary on x. -/
theorem collapse_step_position_and_color_witness :
    (updateParticle 2 ⟨⟨10, 0, 0⟩, ⟨0.7, 1.0, 1.0⟩⟩).pos =
      collapseScale • driftPos ⟨10, 0, 0⟩ ∧
    (updateParticle 2 ⟨⟨10, 0, 0⟩, ⟨0.7, 1.0, 1.0⟩⟩).color = collapseColor 2 := by
  have hns : (Vec3.mk 10 0 0).normSq = 100 := by norm_num [Vec3.normSq]
  have hn : (Vec3.mk 10 0 0).norm = 10 := by
    rw [Vec3.norm, hns, show (100 : ℝ) = 10 ^ 2 by norm_num,
      Real.sqrt_sq (by norm_num : (0:ℝ) ≤ 10)]
  have hdr : driftPos ⟨10, 0, 0⟩ = ⟨10.01, 0, 0⟩ := by
    rw [driftPos_eq_smul _ (by rw [hns]; norm_num), hn]
    ext <;> simp [increment] <;> norm_num
  exact collapse_step_position_and_color 2 ⟨⟨10, 0, 0⟩, ⟨0.7, 1.0, 1.0⟩⟩
    (by norm_num [size])
    (Or.inl (Or.inl (by rw [hdr]; norm_num [size])))

/-- C2: an advance step that triggers no boundary collapse never decreases a
particle's distance from the origin, and strictly increases it by exactly the
fixed increment `0.01` when the particle is not at the origin. -/
theorem no_collapse_step_distance (t : ℝ) (pr : Particle)
    (hx : ¬((driftPos pr.pos).x > size ∨ (driftPos pr.pos).x < -size))
    (hy : ¬((driftPos pr.pos).y > size ∨ (driftPos pr.pos).y < -size))
    (hz : ¬((driftPos pr.pos).z > size ∨ (driftPos pr.pos).z < -size)) :
    pr.pos.norm ≤ (updateParticle t pr).pos.norm ∧
    (pr.pos ≠ 0 → (updateParticle t pr).pos.norm = pr.pos.norm + increment) := by
  have hupd : (updateParticle t pr).pos = driftPos pr.pos := by
    unfold updateParticle
    rw [checks_pass t (driftPos pr.pos) pr.color hx hy hz]
  by_cases h0 : pr.pos = 0
  · refine ⟨?_, fun hne => absurd h0 hne⟩
    rw [hupd, h0, driftPos_zero]
  · have hns : pr.pos.normSq ≠ 0 := fun hc => h0 ((Vec3.normSq_eq_zero_iff _).mp hc)
    have heq : (updateParticle t pr).pos.norm = pr.pos.norm + increment := by
      rw [hupd, driftPos_norm _ hns]
    exact ⟨by rw [heq]; norm_num [increment], fun _ => heq⟩

/-- Witness for C2 at the particle `(3, 4, 0)` (norm 5) with elapsed time 1:
the drifted position is `(3.006, 4.008, 0)` and no boundary is crossed. -/
theorem no_collapse_step_distance_witness :
    (Vec3.mk 3 4 0).norm ≤ (updateParticle 1 ⟨⟨3, 4, 0⟩, ⟨0.7, 1.0, 1.0⟩⟩).pos.norm ∧
    (Vec3.mk 3 4 0 ≠ 0 →
      (updateParticle 1 ⟨⟨3, 4, 0⟩, ⟨0.7, 1.0, 1.0⟩⟩).pos.norm =
        (Vec3.mk 3 4 0).norm + increment) := by
  have hns : (Vec3.mk 3 4 0).normSq = 25 := by norm_num [Vec3.normSq]
  have hn : (Vec3.mk 3 4 0).norm = 5 := by
    rw [Vec3.norm, hns, show (25 : ℝ) = 5 ^ 2 by norm_num,
      Real.sqrt_sq (by norm_num : (0:ℝ) ≤ 5)]
  have hdr : driftPos ⟨3, 4, 0⟩ = ⟨3.006, 4.008, 0⟩ := by
    rw [driftPos_eq_smul _ (by rw [hns]; norm_num), hn]
    ext <;> simp [increment] <;> norm_num
  exact no_collapse_step_distance 1 ⟨⟨3, 4, 0⟩, ⟨0.7, 1.0, 1.0⟩⟩
    (by rw [hdr]; norm_num [size]) (by rw [hdr]; norm_num [size])
    (by rw [hdr]; norm_num [size])

/-- C6: the particle positions produced by one `onAnimate` step do not depend
on the time delta — the same state advanced with `dt1` and with `dt2` yields
identical position arrays (only colors can differ, through `ellapsedTime`). -/
theorem positions_independent_of_dt (st : FrameState) (dt1 dt2 : ℝ) :
    ((onAnimate st dt1).particles).map Particle.pos =
    ((onAnimate st dt2).particles).map Particle.pos := by
  have h : ∀ dt : ℝ, (onAnimate st dt).particles =
      st.particles.map (updateParticle (st.ellapsedTime + dt)) := fun _ => rfl
  rw [h, h]
  induction st.particles with
  | nil => rfl
  | cons a l ih =>
    simp only [List.map_cons]
    rw [updateParticle_pos_indep (st.ellapsedTime + dt1) (st.ellapsedTime + dt2) a, ih]

/-- C9: one advance step preserves the bounded-position invariant: if every
position component starts with absolute value at most `size = 10.0`, every
component ends the step with absolute value at most `10.0`. -/
theorem step_preserves_bounds (t : ℝ) (pr : Particle)
    (hb : |pr.pos.x| ≤ size ∧ |pr.pos.y| ≤ size ∧ |pr.pos.z| ≤ size) :
    |(updateParticle t pr).pos.x| ≤ size ∧ |(updateParticle t pr).pos.y| ≤ size ∧
      |(updateParticle t pr).pos.z| ≤ size := by
  obtain ⟨hdx, hdy, hdz⟩ := driftPos_comp_bound pr.pos size hb
  by_cases htr : ((driftPos pr.pos).x > size ∨ (driftPos pr.pos).x < -size) ∨
      ((driftPos pr.pos).y > size ∨ (driftPos pr.pos).y < -size) ∨
      ((driftPos pr.pos).z > size ∨ (driftPos pr.pos).z < -size)
  · unfold updateParticle
    rw [checks_collapse t (driftPos pr.pos) pr.color ⟨hdx, hdy, hdz⟩ htr]
    refine ⟨?_, ?_, ?_⟩
    · exact (not_out_iff _).mp (collapsed_not_out (driftPos pr.pos).x hdx)
    · exact (not_out_iff _).mp (collapsed_not_out (driftPos pr.pos).y hdy)
    · exact (not_out_iff _).mp (collapsed_not_out (driftPos pr.pos).z hdz)
  · obtain ⟨hA, hBC⟩ := not_or.mp htr
    obtain ⟨hB, hC⟩ := not_or.mp hBC
    unfold updateParticle
    rw [checks_pass t (driftPos pr.pos) pr.color hA hB hC]
    exact ⟨(not_out_iff _).mp hA, (not_out_iff _).mp hB, (not_out_iff _).mp hC⟩

/-- Witness for C9 at the particle `(3, 4, 0)` with elapsed time 0. -/
theorem step_preserves_bounds_witness :
    |(updateParticle 0 ⟨⟨3, 4, 0⟩, ⟨0.7, 1.0, 1.0⟩⟩).pos.x| ≤ size ∧
    |(updateParticle 0 ⟨⟨3, 4, 0⟩, ⟨0.7, 1.0, 1.0⟩⟩).pos.y| ≤ size ∧
    |(updateParticle 0 ⟨⟨3, 4, 0⟩, ⟨0.7, 1.0, 1.0⟩⟩).pos.z| ≤ size :=
  step_preserves_bounds 0 ⟨⟨3, 4, 0⟩, ⟨0.7, 1.0, 1.0⟩⟩ (by norm_num [size])

/-! ### The claims about the frame driver -/

/-- C3: in every tick, `ellapsedTime` accumulates `dt`, `halfSize` is derived
from the accumulated-and-wrapped phase before the override, the stored phase
ends the tick at the constant `1.0`, and the uniforms handed to the shader at
draw time are the stored `halfSize` and `ellapsedTime` (the `phase` uniform is
the elapsed time, and `drawUniforms` reads only `ellapsedTime` and `halfSize`,
never the stored phase variable). -/
theorem tick_then_draw_uniforms (st : FrameState) (dt : ℝ) :
    (onAnimate st dt).ellapsedTime = st.ellapsedTime + dt ∧
    (onAnimate st dt).halfSize =
      0.2 * (if st.phase + dt > 3 then st.phase + dt - 3 else st.phase + dt) / 3 ∧
    (onAnimate st dt).phase = 1.0 ∧
    (drawUniforms (onAnimate st dt)).phase = st.ellapsedTime + dt ∧
    (drawUniforms (onAnimate st dt)).halfSize = (onAnimate st dt).halfSize ∧
    (∀ s1 s2 : FrameState, s1.ellapsedTime = s2.ellapsedTime →
      s1.halfSize = s2.halfSize → drawUniforms s1 = drawUniforms s2) := by
  refine ⟨rfl, rfl, rfl, rfl, rfl, ?_⟩
  intro s1 s2 he hh
  unfold drawUniforms
  rw [he, hh]

/-- C10: the stored phase equals `1.0` at the end of every tick; from such a
state, a tick with `0 ≤ dt ≤ 2` never takes the wrap branch (`phase > 3` is
false) and yields `halfSize = 0.2 * (1.0 + dt) / 3`. -/
theorem phase_constant_tick (st : FrameState) (dt : ℝ)
    (h1 : st.phase = 1.0) (h0 : 0 ≤ dt) (h2 : dt ≤ 2) :
    (onAnimate st dt).phase = 1.0 ∧
    ¬(st.phase + dt > 3) ∧
    (onAnimate st dt).halfSize = 0.2 * (1.0 + dt) / 3 := by
  have hle : ¬(st.phase + dt > 3) := by
    rw [h1]
    push_neg
    norm_num
    linarith
  refine ⟨rfl, hle, ?_⟩
  have hval : (onAnimate st dt).halfSize =
      0.2 * (if st.phase + dt > 3 then st.phase + dt - 3 else st.phase + dt) / 3 := rfl
  rw [hval, if_neg hle, h1]

/-- Witness for C10 one tick from the state `(phase 1.0, ellapsedTime 7)` with
`dt = 1`. -/
theorem phase_constant_tick_witness :
    (onAnimate ⟨1.0, 7, 0.1, []⟩ 1).phase = 1.0 ∧
    ¬((FrameState.mk 1.0 7 0.1 []).phase + 1 > 3) ∧
    (onAnimate ⟨1.0, 7, 0.1, []⟩ 1).halfSize = 0.2 * (1.0 + 1) / 3 :=
  phase_constant_tick ⟨1.0, 7, 0.1, []⟩ 1 rfl (by norm_num) (by norm_num)

/-! ### The claim about initialization -/

/-- C8: for every pair of sampled angles, initialization places the particle
at distance exactly `0.8 = 0.01 * 80.0` from the origin, with the same fixed
initial color `HSV(0.7, 1.0, 1.0)` for every particle. -/
theorem init_sphere_radius_and_color (horizontal vertical : ℝ) :
    (initParticle horizontal vertical).pos.norm = 0.8 ∧
    (initParticle horizontal vertical).color = ⟨0.7, 1.0, 1.0⟩ := by
  refine ⟨?_, rfl⟩
  show (initPos horizontal vertical).norm = 0.8
  have c1 := Real.sin_sq_add_cos_sq horizontal
  have c2 := Real.sin_sq_add_cos_sq vertical
  have hsq : (initPos horizontal vertical).normSq = 0.64 := by
    simp only [initPos, Vec3.normSq, Vec3.smul_x, Vec3.smul_y, Vec3.smul_z]
    linear_combination (0.64 * Real.sin vertical ^ 2) * c1 + 0.64 * c2
  rw [Vec3.norm, hsq, show (0.64 : ℝ) = 0.8 ^ 2 by norm_num,
    Real.sqrt_sq (by norm_num : (0:ℝ) ≤ 0.8)]

/-! ### The claim about the geometry stage -/

/-- C4: for every projection matrix, view-space input point, half-size and
input color, the geometry stage emits exactly 4 vertices: their positions are
the projections of the input point offset by `(±halfSize, ±halfSize)` in the
two screen-plane axes, their texture coordinates are `(0,0), (1,0), (0,1),
(1,1)` in emission order, the input color is passed to all 4 vertices, and
each emitted position is the projected center plus the projected offset. -/
theorem geometry_quad_contract (m : Fin 4 → Fin 4 → ℝ) (v : Vec4R) (h : ℝ)
    (c : Vec4R) :
    (geometryMain m v h c).length = 4 ∧
    (geometryMain m v h c).map GVertex.texCoord = [(0, 0), (1, 0), (0, 1), (1, 1)] ∧
    (geometryMain m v h c).map GVertex.color = [c, c, c, c] ∧
    (geometryMain m v h c).map GVertex.pos =
      [(-h, -h), (h, -h), (-h, h), (h, h)].map
        (fun ab => mulVec4 m (v + cornerOffset ab.1 ab.2)) ∧
    (∀ a b : ℝ, mulVec4 m (v + cornerOffset a b) =
      fun i => mulVec4 m v i + mulVec4 m (cornerOffset a b) i) := by
  refine ⟨rfl, rfl, rfl, rfl, ?_⟩
  intro a b
  funext i
  unfold mulVec4
  rw [← Finset.sum_add_distrib]
  apply Finset.sum_congr rfl
  intro j _
  have hj : (v + cornerOffset a b) j = v j + cornerOffset a b j := rfl
  show m i j * ((v + cornerOffset a b) j) = m i j * v j + m i j * cornerOffset a b j
  rw [hj]
  ring

/-! ### The claims about the alpha mask -/

theorem maskCoord_reflect (i : ℕ) (hi : i < 256) :
    maskCoord 256 (255 - i) = -(maskCoord 256 i) := by
  unfold maskCoord
  have hle : i ≤ 255 := by omega
  rw [Nat.cast_sub hle]
  push_cast
  norm_num
  ring

/-- C7: the alpha mask is symmetric under reflection about both grid axes:
the sample at index `(i, j)` equals the samples at `(255 - i, j)`,
`(i, 255 - j)` and `(255 - i, 255 - j)` — index `255 - i` carries the negated
normalized coordinate, and the intensity depends only on `x² + y²`. -/
theorem mask_reflection_symmetry (i j : ℕ) (hi : i < 256) (hj : j < 256) :
    maskValue 256 256 (255 - i) j = maskValue 256 256 i j ∧
    maskValue 256 256 i (255 - j) = maskValue 256 256 i j ∧
    maskValue 256 256 (255 - i) (255 - j) = maskValue 256 256 i j := by
  unfold maskValue
  rw [maskCoord_reflect i hi, maskCoord_reflect j hj, neg_sq, neg_sq]
  exact ⟨rfl, rfl, rfl⟩

/-- Witness for C7 at the index pair `(3, 5)`. -/
theorem mask_reflection_symmetry_witness :
    maskValue 256 256 252 5 = maskValue 256 256 3 5 ∧
    maskValue 256 256 3 250 = maskValue 256 256 3 5 ∧
    maskValue 256 256 252 250 = maskValue 256 256 3 5 :=
  mask_reflection_symmetry 3 5 (by norm_num) (by norm_num)

/-- The property claim C5 asserts of the 256×256 mask: some sample sits at the
exact center of the grid (both normalized coordinates are 0) and its value is
the maximal representable positive `short`, `2^15 - 1 = 32767`. -/
def centerSampleMaximal : Prop :=
  ∃ i j : ℕ, i < 256 ∧ j < 256 ∧ maskCoord 256 i = 0 ∧ maskCoord 256 j = 0 ∧
    maskValue 256 256 i j = 2 ^ 15 - 1

theorem maskCoord_ne_zero (i : ℕ) : maskCoord 256 i ≠ 0 := by
  unfold maskCoord
  intro hx
  have h255 : ((256 : ℕ) : ℝ) - 1 = 255 := by norm_num
  rw [h255] at hx
  have h2i : (i : ℝ) * 2 = 255 := by
    field_simp at hx
    linarith
  have hnat : ((2 * i : ℕ) : ℝ) = 255 := by push_cast; linarith
  have : 2 * i = 255 := by exact_mod_cast hnat
  omega

theorem maskValue_lt_max (i j : ℕ) : maskValue 256 256 i j < 2 ^ 15 - 1 := by
  unfold maskValue
  have hx2 : 0 < (maskCoord 256 i) ^ 2 :=
    lt_of_le_of_ne (sq_nonneg _) (Ne.symm (pow_ne_zero 2 (maskCoord_ne_zero i)))
  have hy2 : 0 ≤ (maskCoord 256 j) ^ 2 := sq_nonneg _
  have hexp : Real.exp (-13 * ((maskCoord 256 i) ^ 2 + (maskCoord 256 j) ^ 2)) < 1 :=
    Real.exp_lt_one_iff.mpr (by nlinarith)
  calc Real.exp (-13 * ((maskCoord 256 i) ^ 2 + (maskCoord 256 j) ^ 2)) * (2 ^ 15 - 1)
      < 1 * (2 ^ 15 - 1) := by
        exact mul_lt_mul_of_pos_right hexp (by norm_num)
    _ = 2 ^ 15 - 1 := one_mul _

/-- Counterexample to C5 as stated: the fixed 256×256 grid has no sample at
the exact center (no index maps to normalized coordinate 0, since
`i/255*2 - 1 = 0` would need `2i = 255`), and the samples nearest the center,
`(127, 127)` and `(128, 128)`, are strictly below `2^15 - 1 = 32767`. -/
theorem center_sample_not_maximal :
    ¬centerSampleMaximal ∧
    maskValue 256 256 127 127 < 2 ^ 15 - 1 ∧
    maskValue 256 256 128 128 < 2 ^ 15 - 1 := by
  refine ⟨?_, maskValue_lt_max 127 127, maskValue_lt_max 128 128⟩
  rintro ⟨i, j, hi, hj, hx, hy, hv⟩
  exact maskCoord_ne_zero i hx

/-- C5 (amended): there is no sample at the exact center of the fixed 256×256
grid; the samples nearest the center, e.g. `(127, 127)`, equal
`exp(-26/65025) * 32767`, which lies strictly between `32753` and the maximal
representable value `32767`; and the corner sample `(0, 0)` equals
`exp(-26) * 32767 < 10⁻⁶`, approaching zero. -/
theorem mask_center_near_max_corners_near_zero :
    (∀ i : ℕ, maskCoord 256 i ≠ 0) ∧
    maskValue 256 256 127 127 = Real.exp (-(26 / 65025)) * (2 ^ 15 - 1) ∧
    32753 < maskValue 256 256 127 127 ∧
    maskValue 256 256 127 127 < 2 ^ 15 - 1 ∧
    maskValue 256 256 0 0 = Real.exp (-26) * (2 ^ 15 - 1) ∧
    maskValue 256 256 0 0 < 0.000001 := by
  have harg1 : -13 * ((maskCoord 256 127) ^ 2 + (maskCoord 256 127) ^ 2) =
      -(26 / 65025 : ℝ) := by
    unfold maskCoord
    norm_num
  have harg2 : -13 * ((maskCoord 256 0) ^ 2 + (maskCoord 256 0) ^ 2) = (-26 : ℝ) := by
    unfold maskCoord
    norm_num
  have he1 : maskValue 256 256 127 127 = Real.exp (-(26 / 65025)) * (2 ^ 15 - 1) := by
    unfold maskValue
    rw [harg1]
  have he2 : maskValue 256 256 0 0 = Real.exp (-26) * (2 ^ 15 - 1) := by
    unfold maskValue
    rw [harg2]
  refine ⟨maskCoord_ne_zero, he1, ?_, maskValue_lt_max 127 127, he2, ?_⟩
  · rw [he1]
    have hlb := Real.add_one_le_exp (-(26 / 65025 : ℝ))
    calc (32753 : ℝ) < (1 - 26 / 65025) * (2 ^ 15 - 1) := by norm_num
      _ ≤ Real.exp (-(26 / 65025)) * (2 ^ 15 - 1) :=
          mul_le_mul_of_nonneg_right (by linarith) (by norm_num)
  · rw [he2]
    have hpow : Real.exp 26 = Real.exp 1 ^ 26 := by
      rw [← Real.exp_nat_mul]
      norm_num
    have h27 : (2.7 : ℝ) ^ 26 ≤ Real.exp 1 ^ 26 :=
      pow_le_pow_left₀ (by norm_num) (by linarith [Real.exp_one_gt_d9]) 26
    have hbig : (32767000000 : ℝ) < Real.exp 26 := by
      rw [hpow]
      calc (32767000000 : ℝ) < (2.7 : ℝ) ^ 26 := by norm_num
        _ ≤ Real.exp 1 ^ 26 := h27
    rw [Real.exp_neg, inv_mul_lt_iff₀ (Real.exp_pos 26)]
    nlinarith [hbig]
